import Mathlib

/-!
# Row-band ray-tracer driver (`main.cpp`)

A shallow embedding of the driver of the multithreaded ray tracer: the loop of
`main` that hands one row band to each worker thread, and the worker `Width`
that maps every pixel of its band to camera coordinates, traces it and stores
the three colour channels in the shared image.

Conventions of the embedding.

* C++ `int` values are `Int`; `/` on `int` is truncating division
  (`Int.tdiv`), guarded by `idiv`, which fails on a zero divisor.  Every `int`
  the band arithmetic computes lies between `0` and the image height
  (`threadArgs_range`), so no wrap-around is modelled.
* C++ `float` values are exact rationals (`ℚ`).
* `g_scene.trace`, `Colour::toSRGB` and `Colour::saturate` live in headers
  outside this file; they are fields of `Env`, arbitrary functions.
* The image is the history of the stores made through `image->data(x, y, 0, c)`,
  newest first; a sample never stored reads `0`, the fill value of the image.
-/

namespace Raytracer

/-- The three channels of `kf::Colour`. -/
structure Colour where
  r : ℚ
  g : ℚ
  b : ℚ
deriving DecidableEq

/-- One store `*image->data(x, y, 0, c) = val`. -/
structure Write where
  x : Int
  y : Int
  c : Nat
  val : ℚ
deriving DecidableEq

/-- The image `CImg<float>`, as the history of its stores, newest first. -/
abbrev Image := List Write

/-- The store `*image->data(x, y, 0, c) = val`. -/
def Image.store (image : Image) (x y : Int) (c : Nat) (val : ℚ) : Image :=
  { x := x, y := y, c := c, val := val } :: image

/-- The sample `*image->data(x, y, 0, c)`: the newest store to it, `0` when
there is none. -/
def Image.data (image : Image) (x y : Int) (c : Nat) : ℚ :=
  match image.find? (fun w => decide (w.x = x ∧ w.y = y ∧ w.c = c)) with
  | some w => w.val
  | none => 0

/-- The globals and external functions `Width` reads: `windowWidth`,
`windowHeight`, `g_scene.trace`, `Colour::toSRGB`, `Colour::saturate`. -/
structure Env where
  windowWidth : Int
  windowHeight : Int
  trace : ℚ → ℚ → Colour
  toSRGB : Colour → Colour
  saturate : Colour → Colour

/-- The loop `for (int i = lo; i < hi; i++) body(i)` over a state. -/
def forLoop {σ : Type} (lo hi : Int) (body : Int → σ → σ) (s : σ) : σ :=
  (List.range (hi - lo).toNat).foldl (fun s (k : Nat) => body (lo + (k : Int)) s) s

/-- The same loop with a body that can fail. -/
def forLoopM {σ : Type} (lo hi : Int) (body : Int → σ → Option σ) (s : σ) : Option σ :=
  (List.range (hi - lo).toNat).foldlM (fun s (k : Nat) => body (lo + (k : Int)) s) s

/-- Integer division `a / b` of C++: truncating, undefined for `b = 0`. -/
def idiv (a b : Int) : Option Int :=
  if b = 0 then none else some (a.tdiv b)

/-- First argument of `trace` in `Width`:
`float(x - windowWidth / 2) / (windowWidth / 2)`. -/
def camU (windowWidth x : Int) : ℚ :=
  ((x - windowWidth.tdiv 2 : Int) : ℚ) / ((windowWidth.tdiv 2 : Int) : ℚ)

/-- Second argument of `trace` in `Width`:
`-float(y - windowHeight / 2) / (windowHeight / 2) * (float(windowHeight) / windowWidth)`. -/
def camV (windowWidth windowHeight y : Int) : ℚ :=
  -((y - windowHeight.tdiv 2 : Int) : ℚ) / ((windowHeight.tdiv 2 : Int) : ℚ)
    * ((windowHeight : ℚ) / (windowWidth : ℚ))

/-- Body of the inner loop of `Width` for the pixel `(x, y)`. -/
def pixel (e : Env) (y x : Int) (image : Image) : Image :=
  let output := e.trace (camU e.windowWidth x) (camV e.windowWidth e.windowHeight y)
  let output := e.toSRGB output
  let output := e.saturate output
  let image := image.store x y 0 (output.r * 255)
  let image := image.store x y 1 (output.g * 255)
  image.store x y 2 (output.b * 255)

/-- The worker `Width(start, end, image)`. -/
def Width (e : Env) (start stop : Int) (image : Image) : Image :=
  forLoop start stop
    (fun y image => forLoop 0 e.windowWidth (fun x image => pixel e y x image) image) image

/-- The arguments `i * (windowHeight / cores)` and
`(i + 1) * (windowHeight / cores)` of the thread created in round `i`. -/
def threadArgs (windowHeight cores i : Int) : Option (Int × Int) := do
  let q ← idiv windowHeight cores
  let q' ← idiv windowHeight cores
  pure (i * q, (i + 1) * q')

/-- The loop of `main` that creates the threads: round `i` pushes the band of
thread `i` to the back of `threads`. -/
def spawnThreads (windowHeight cores : Int) : Option (List (Int × Int)) :=
  forLoopM 0 cores
    (fun i threads => do
      let t ← threadArgs windowHeight cores i
      pure (threads ++ [t]))
    []

/-- The threads run to completion one after the other, in the order of
`threads`. -/
def runThreads (e : Env) (threads : List (Int × Int)) (image : Image) : Image :=
  threads.foldl (fun image t => Width e t.1 t.2 image) image

/-- The rendering part of `main`: `cores` is the value of
`std::thread::hardware_concurrency()`; the threads are created, then joined. -/
def main (e : Env) (cores : Int) (image : Image) : Option Image := do
  let threads ← spawnThreads e.windowHeight cores
  pure (runThreads e threads image)

/-- Row `y` lies in the half-open band `[t.1, t.2)`. -/
def inBand (t : Int × Int) (y : Int) : Prop := t.1 ≤ y ∧ y < t.2

instance (t : Int × Int) (y : Int) : Decidable (inBand t y) := by
  unfold inBand; infer_instance


/-- Channel `c` of a colour: `0` is `r`, `1` is `g`, anything else is `b`. -/
def Colour.chan (col : Colour) (c : Nat) : ℚ :=
  match c with
  | 0 => col.r
  | 1 => col.g
  | _ => col.b

/-- The colour `Width` has in `output` when it stores the pixel `(x, y)`. -/
def finalColour (e : Env) (x y : Int) : Colour :=
  e.saturate (e.toSRGB (e.trace (camU e.windowWidth x) (camV e.windowWidth e.windowHeight y)))

/-- The three stores of `pixel`, newest first. -/
def pixelWrites (e : Env) (y x : Int) : List Write :=
  let output := e.saturate (e.toSRGB
    (e.trace (camU e.windowWidth x) (camV e.windowWidth e.windowHeight y)))
  [ { x := x, y := y, c := 2, val := output.b * 255 },
    { x := x, y := y, c := 1, val := output.g * 255 },
    { x := x, y := y, c := 0, val := output.r * 255 } ]

/-- The stores of one call of `Width`, newest first. -/
def widthWrites (e : Env) (start stop : Int) : List Write :=
  (List.range (stop - start).toNat).reverse.flatMap (fun k =>
    (List.range (e.windowWidth - 0).toNat).reverse.flatMap (fun j =>
      pixelWrites e (start + (k : Int)) (0 + (j : Int))))

/-- The band of thread `i`, as `main` computes it once the division is defined. -/
def band (windowHeight cores : Int) (i : Nat) : Int × Int :=
  ((i : Int) * windowHeight.tdiv cores, ((i : Int) + 1) * windowHeight.tdiv cores)

/-- A small scene for concrete runs: a `2 × 4` image, a trace that returns its
coordinates, a halving of the red channel for `toSRGB`, and the clamp to
`[0, 1]` for `saturate`. -/
def env0 : Env :=
  { windowWidth := 2, windowHeight := 4,
    trace := fun u v => ⟨u, v, 2⟩, toSRGB := fun c => ⟨c.r / 2, c.g, c.b⟩,
    saturate := fun c => ⟨max 0 (min 1 c.r), max 0 (min 1 c.g), max 0 (min 1 c.b)⟩ }

/-! ## Loops -/

theorem foldl_prepend {α : Type} (f : Nat → List α) (body : List α → Nat → List α)
    (hb : ∀ s k, body s k = f k ++ s) (n : Nat) (s : List α) :
    (List.range n).foldl body s = (List.range n).reverse.flatMap f ++ s := by
  induction n with
  | zero => simp
  | succ n ih => simp [List.range_succ, List.foldl_append, ih, hb]

theorem forLoop_prepend {α : Type} (lo hi : Int) (f : Int → List α)
    (body : Int → List α → List α) (hb : ∀ i s, body i s = f i ++ s) (s : List α) :
    forLoop lo hi body s
      = (List.range (hi - lo).toNat).reverse.flatMap (fun k => f (lo + (k : Int))) ++ s := by
  unfold forLoop
  exact foldl_prepend (fun k => f (lo + (k : Int))) _ (fun s k => hb _ s) _ s

theorem mem_loop_range {α : Type} (lo hi : Int) (f : Int → List α) (w : α) :
    w ∈ (List.range (hi - lo).toNat).reverse.flatMap (fun k => f (lo + (k : Int)))
      ↔ ∃ i, lo ≤ i ∧ i < hi ∧ w ∈ f i := by
  simp only [List.mem_flatMap, List.mem_reverse, List.mem_range]
  constructor
  · rintro ⟨k, hk, hw⟩
    exact ⟨lo + k, by omega, by omega, hw⟩
  · rintro ⟨i, h1, h2, hw⟩
    refine ⟨(i - lo).toNat, by omega, ?_⟩
    have : lo + ((i - lo).toNat : Int) = i := by omega
    rw [this]; exact hw

theorem foldlM_push {α : Type} (g : Nat → α) (body : List α → Nat → Option (List α))
    (hb : ∀ s k, body s k = some (s ++ [g k])) (n : Nat) (s : List α) :
    (List.range n).foldlM body s = some (s ++ (List.range n).map g) := by
  induction n with
  | zero => simp
  | succ n ih => simp [List.range_succ, List.foldlM_append, ih, hb]

/-! ## The image as a store history -/

theorem data_append_of_mem (news old : Image) (x y : Int) (c : Nat) (v : ℚ)
    (hex : ∃ w ∈ news, w.x = x ∧ w.y = y ∧ w.c = c)
    (hall : ∀ w ∈ news, w.x = x ∧ w.y = y ∧ w.c = c → w.val = v) :
    Image.data (news ++ old) x y c = v := by
  unfold Image.data
  obtain ⟨w0, hw0, hk0⟩ := hex
  cases hf : List.find? (fun w => decide (w.x = x ∧ w.y = y ∧ w.c = c)) (news ++ old) with
  | none =>
    rw [List.find?_eq_none] at hf
    have := hf w0 (List.mem_append_left _ hw0)
    simp [hk0] at this
  | some w =>
    have hp := List.find?_some hf
    simp only [decide_eq_true_eq] at hp
    rw [List.find?_append] at hf
    cases hn : List.find? (fun w => decide (w.x = x ∧ w.y = y ∧ w.c = c)) news with
    | none =>
      rw [List.find?_eq_none] at hn
      have := hn w0 hw0
      simp [hk0] at this
    | some w1 =>
      rw [hn] at hf
      simp at hf
      subst hf
      exact hall _ (List.mem_of_find?_eq_some hn) hp

theorem data_of_mem (image : Image) (x y : Int) (c : Nat) (v : ℚ)
    (hex : ∃ w ∈ image, w.x = x ∧ w.y = y ∧ w.c = c)
    (hall : ∀ w ∈ image, w.x = x ∧ w.y = y ∧ w.c = c → w.val = v) :
    Image.data image x y c = v := by
  have := data_append_of_mem image [] x y c v hex hall
  simpa using this

/-! ## The worker -/

theorem pixel_eq (e : Env) (y x : Int) (image : Image) :
    pixel e y x image = pixelWrites e y x ++ image := rfl

theorem Width_eq (e : Env) (start stop : Int) (image : Image) :
    Width e start stop image = widthWrites e start stop ++ image := by
  unfold Width widthWrites
  rw [forLoop_prepend start stop
    (fun y => (List.range (e.windowWidth - 0).toNat).reverse.flatMap
      (fun j => pixelWrites e y (0 + (j : Int))))]
  intro y s
  exact forLoop_prepend 0 e.windowWidth (fun x => pixelWrites e y x) _
    (fun x s => pixel_eq e y x s) s

theorem mem_widthWrites (e : Env) (start stop : Int) (w : Write) :
    w ∈ widthWrites e start stop ↔
      ∃ y x, start ≤ y ∧ y < stop ∧ 0 ≤ x ∧ x < e.windowWidth ∧ w ∈ pixelWrites e y x := by
  unfold widthWrites
  rw [mem_loop_range start stop
    (fun y => (List.range (e.windowWidth - 0).toNat).reverse.flatMap
      (fun j => pixelWrites e y (0 + (j : Int))))]
  constructor
  · rintro ⟨y, h1, h2, hw⟩
    rw [mem_loop_range 0 e.windowWidth (fun x => pixelWrites e y x)] at hw
    obtain ⟨x, h3, h4, hw⟩ := hw
    exact ⟨y, x, h1, h2, h3, h4, hw⟩
  · rintro ⟨y, x, h1, h2, h3, h4, hw⟩
    refine ⟨y, h1, h2, ?_⟩
    rw [mem_loop_range 0 e.windowWidth (fun x => pixelWrites e y x)]
    exact ⟨x, h3, h4, hw⟩

theorem mem_pixelWrites (e : Env) (y x : Int) (w : Write) :
    w ∈ pixelWrites e y x ↔
      w.x = x ∧ w.y = y ∧ w.c < 3 ∧
      w.val = (e.saturate (e.toSRGB
        (e.trace (camU e.windowWidth x) (camV e.windowWidth e.windowHeight y)))).chan w.c * 255 := by
  unfold pixelWrites
  simp only [List.mem_cons, List.mem_singleton, List.not_mem_nil, or_false]
  constructor
  · rintro (h | h | h) <;> subst h <;> simp [Colour.chan]
  · rintro ⟨h1, h2, h3, h4⟩
    obtain ⟨wx, wy, wc, wv⟩ := w
    simp only at h1 h2 h3 h4
    subst h1 h2
    have : wc = 0 ∨ wc = 1 ∨ wc = 2 := by omega
    rcases this with h | h | h <;> subst h <;> simp [Colour.chan] at h4 ⊢ <;> exact h4


/-! ## The threads `main` creates -/

theorem threadArgs_eq (H cores : Int) (hc : cores ≠ 0) (i : Nat) :
    threadArgs H cores (0 + (i : Int)) = some (band H cores i) := by
  simp [threadArgs, idiv, hc, band]

theorem spawnThreads_eq (H cores : Int) (hc : 1 ≤ cores) :
    spawnThreads H cores = some ((List.range cores.toNat).map (band H cores)) := by
  unfold spawnThreads forLoopM
  have h := foldlM_push (band H cores)
    (fun (threads : List (Int × Int)) (k : Nat) => do
      let t ← threadArgs H cores (0 + (k : Int))
      pure (threads ++ [t]))
    (fun s k => by show (do let t ← threadArgs H cores (0 + (k : Int)); pure (s ++ [t])) = _; rw [threadArgs_eq H cores (by omega) k]; rfl)
    (cores - 0).toNat []
  simpa using h

theorem spawnThreads_nonpos (H cores : Int) (hc : cores ≤ 0) :
    spawnThreads H cores = some [] := by
  unfold spawnThreads forLoopM
  have : (cores - 0).toNat = 0 := by omega
  rw [this]; rfl

theorem getElem?_bands (H cores : Int) (i : Nat) (b : Int × Int) :
    ((List.range cores.toNat).map (band H cores))[i]? = some b
      ↔ (i : Int) < cores ∧ b = band H cores i := by
  rw [List.getElem?_map]
  by_cases hi : i < cores.toNat
  · rw [List.getElem?_range hi]
    simp only [Option.map_some', Option.some.injEq]
    constructor
    · intro h; exact ⟨by omega, h.symm⟩
    · intro h; exact h.2.symm
  · rw [List.getElem?_eq_none (by simpa using hi)]
    simp only [Option.map_none', false_iff, not_and]
    constructor
    · intro h; cases h
    · intro h; omega

theorem mul_tdiv_le (H N : Int) (hH : 0 ≤ H) : N * H.tdiv N ≤ H := by
  have h1 := Int.tdiv_add_tmod H N
  have h2 : 0 ≤ H.tmod N := Int.tmod_nonneg N hH
  omega

/-- A row of band `i` lies between `i * q` and `(i + 1) * q`, so two bands with a
common row have the same index. -/
theorem band_index_unique (q : Int) (i j : Nat) (y : Int)
    (hi : (i : Int) * q ≤ y ∧ y < ((i : Int) + 1) * q)
    (hj : (j : Int) * q ≤ y ∧ y < ((j : Int) + 1) * q) : i = j := by
  have hq : 0 < q := by
    by_contra hq
    have : ((i : Int) + 1) * q ≤ (i : Int) * q := by nlinarith
    omega
  rcases Nat.lt_trichotomy i j with h | h | h
  · exfalso
    have h1 : ((i : Int) + 1) ≤ (j : Int) := by omega
    have : ((i : Int) + 1) * q ≤ (j : Int) * q := Int.mul_le_mul_of_nonneg_right h1 hq.le
    omega
  · exact h
  · exfalso
    have h1 : ((j : Int) + 1) ≤ (i : Int) := by omega
    have : ((j : Int) + 1) * q ≤ (i : Int) * q := Int.mul_le_mul_of_nonneg_right h1 hq.le
    omega

/-- A row below `N * q` lies in the band of index `y / q`. -/
theorem band_index_exists (q N : Int) (y : Int) (hy : 0 ≤ y) (hlt : y < N * q) (hN : 1 ≤ N) :
    ∃ i : Nat, (i : Int) < N ∧ (i : Int) * q ≤ y ∧ y < ((i : Int) + 1) * q := by
  have hq : 0 < q := by
    by_contra hq
    have : N * q ≤ 0 := by nlinarith
    omega
  have h0 : 0 ≤ y / q := Int.ediv_nonneg hy hq.le
  have h1 := Int.ediv_add_emod y q
  have h2 := Int.emod_nonneg y hq.ne'
  have h3 := Int.emod_lt_of_pos y hq
  refine ⟨(y / q).toNat, ?_, ?_, ?_⟩
  · rw [Int.toNat_of_nonneg h0]
    by_contra hc
    have : N * q ≤ (y / q) * q := Int.mul_le_mul_of_nonneg_right (by omega) hq.le
    nlinarith
  · rw [Int.toNat_of_nonneg h0]; nlinarith
  · rw [Int.toNat_of_nonneg h0]; nlinarith


theorem inBand_band (H N : Int) (i : Nat) (y : Int) :
    inBand (band H N i) y ↔ (i : Int) * H.tdiv N ≤ y ∧ y < ((i : Int) + 1) * H.tdiv N :=
  Iff.rfl

/-- Every bound `main` passes to a worker lies between `0` and the image
height: the band arithmetic stays inside the range of `int`. -/
theorem threadArgs_range (H N : Int) (hH : 0 ≤ H) (hN : 1 ≤ N) (i : Nat) (hi : (i : Int) < N) :
    0 ≤ (band H N i).1 ∧ (band H N i).1 ≤ (band H N i).2 ∧ (band H N i).2 ≤ H := by
  have hq : 0 ≤ H.tdiv N := Int.tdiv_nonneg hH (by omega)
  have hle := mul_tdiv_le H N hH
  have h1 : ((i : Int) + 1) * H.tdiv N ≤ N * H.tdiv N :=
    Int.mul_le_mul_of_nonneg_right (by omega) hq
  have h2 : 0 ≤ (i : Int) * H.tdiv N := Int.mul_nonneg (by omega) hq
  simp only [band]
  refine ⟨h2, ?_, by omega⟩
  nlinarith

/-- A row of the image lies in exactly one band as soon as it is below
`N * (H / N)`. -/
theorem row_in_unique_band (H N : Int) (hN : 1 ≤ N) (y : Int) (hy : 0 ≤ y)
    (hlt : y < N * H.tdiv N) :
    ∃! i : Nat, ∃ b, ((List.range N.toNat).map (band H N))[i]? = some b ∧ inBand b y := by
  obtain ⟨i, hi, h1, h2⟩ := band_index_exists (H.tdiv N) N y hy hlt hN
  refine ⟨i, ⟨band H N i, (getElem?_bands H N i _).2 ⟨hi, rfl⟩, ⟨h1, h2⟩⟩, ?_⟩
  rintro j ⟨b, hb, hin⟩
  obtain ⟨_, rfl⟩ := (getElem?_bands H N j b).1 hb
  exact band_index_unique (H.tdiv N) j i y hin ⟨h1, h2⟩


/-! ## The stores of a whole render -/

theorem runThreads_eq (e : Env) (threads : List (Int × Int)) (image : Image) :
    runThreads e threads image
      = threads.reverse.flatMap (fun t => widthWrites e t.1 t.2) ++ image := by
  unfold runThreads
  induction threads generalizing image with
  | nil => simp
  | cons t ts ih => rw [List.foldl_cons, ih, Width_eq]; simp

theorem mem_runThreads (e : Env) (threads : List (Int × Int)) (w : Write) :
    w ∈ runThreads e threads [] ↔
      ∃ t ∈ threads, ∃ y x, inBand t y ∧ 0 ≤ x ∧ x < e.windowWidth ∧ w ∈ pixelWrites e y x := by
  rw [runThreads_eq]
  simp only [List.append_nil, List.mem_flatMap, List.mem_reverse, mem_widthWrites, inBand]
  constructor
  · rintro ⟨t, ht, y, x, h1, h2, h3, h4, hw⟩
    exact ⟨t, ht, y, x, ⟨h1, h2⟩, h3, h4, hw⟩
  · rintro ⟨t, ht, y, x, ⟨h1, h2⟩, h3, h4, hw⟩
    exact ⟨t, ht, y, x, h1, h2, h3, h4, hw⟩

theorem spawnThreads_total (H cores : Int) :
    spawnThreads H cores = some ((List.range cores.toNat).map (band H cores)) := by
  by_cases hc : 1 ≤ cores
  · exact spawnThreads_eq H cores hc
  · rw [spawnThreads_nonpos H cores (by omega)]
    have : cores.toNat = 0 := by omega
    rw [this]; rfl

theorem mem_bands (H N : Int) (t : Int × Int) :
    t ∈ (List.range N.toNat).map (band H N) ↔ ∃ i : Nat, (i : Int) < N ∧ t = band H N i := by
  simp only [List.mem_map, List.mem_range]
  constructor
  · rintro ⟨i, hi, rfl⟩; exact ⟨i, by omega, rfl⟩
  · rintro ⟨i, hi, rfl⟩; exact ⟨i, by omega, rfl⟩

/-! ## The claims on the row bands -/

/-- C1: for every image height `H ≥ 0` and worker count `N ≥ 1`, `main` creates
`N` threads, thread `i` gets the band `[i * (H / N), (i + 1) * (H / N))`, which
lies inside `[0, H]`, and two threads of different index have no row in common:
neither as ranges nor among the rows `Width` stores to. -/
theorem bands_disjoint (H N : Int) (hH : 0 ≤ H) (hN : 1 ≤ N) :
    ∃ threads, spawnThreads H N = some threads ∧ (threads.length : Int) = N ∧
      ∀ (i j : Nat) (bi bj : Int × Int), threads[i]? = some bi → threads[j]? = some bj →
        i ≠ j →
        bi = ((i : Int) * H.tdiv N, ((i : Int) + 1) * H.tdiv N) ∧
        bj = ((j : Int) * H.tdiv N, ((j : Int) + 1) * H.tdiv N) ∧
        0 ≤ bi.1 ∧ bi.2 ≤ H ∧
        (∀ y, ¬ (inBand bi y ∧ inBand bj y)) ∧
        ∀ (e : Env) (wi wj : Write), wi ∈ Width e bi.1 bi.2 [] → wj ∈ Width e bj.1 bj.2 [] →
          wi.y ≠ wj.y := by
  refine ⟨_, spawnThreads_eq H N hN, by simp; omega, ?_⟩
  intro i j bi bj hi hj hij
  obtain ⟨hiN, rfl⟩ := (getElem?_bands H N i bi).1 hi
  obtain ⟨_, rfl⟩ := (getElem?_bands H N j bj).1 hj
  have hr := threadArgs_range H N hH hN i hiN
  have hdis : ∀ y, ¬ (inBand (band H N i) y ∧ inBand (band H N j) y) := by
    rintro y ⟨h1, h2⟩
    exact hij (band_index_unique (H.tdiv N) i j y h1 h2)
  refine ⟨rfl, rfl, hr.1, hr.2.2, hdis, ?_⟩
  intro e wi wj hwi hwj heq
  rw [Width_eq, List.append_nil, mem_widthWrites] at hwi hwj
  obtain ⟨y, x, h1, h2, _, _, hw⟩ := hwi
  obtain ⟨y', x', h1', h2', _, _, hw'⟩ := hwj
  have e1 := ((mem_pixelWrites e y x wi).1 hw).2.1
  have e2 := ((mem_pixelWrites e y' x' wj).1 hw').2.1
  apply hdis wi.y
  constructor
  · exact ⟨by rw [e1]; exact h1, by rw [e1]; exact h2⟩
  · exact ⟨by rw [heq, e2]; exact h1', by rw [heq, e2]; exact h2'⟩

/-- C1 at height `10` with `3` workers. -/
theorem bands_disjoint_witness :
    (0 : Int) ≤ 10 ∧ (1 : Int) ≤ 3 ∧
    ∃ threads, spawnThreads 10 3 = some threads ∧ (threads.length : Int) = 3 ∧
      ∀ (i j : Nat) (bi bj : Int × Int), threads[i]? = some bi → threads[j]? = some bj →
        i ≠ j →
        bi = ((i : Int) * Int.tdiv 10 3, ((i : Int) + 1) * Int.tdiv 10 3) ∧
        bj = ((j : Int) * Int.tdiv 10 3, ((j : Int) + 1) * Int.tdiv 10 3) ∧
        0 ≤ bi.1 ∧ bi.2 ≤ 10 ∧
        (∀ y, ¬ (inBand bi y ∧ inBand bj y)) ∧
        ∀ (e : Env) (wi wj : Write), wi ∈ Width e bi.1 bi.2 [] → wj ∈ Width e bj.1 bj.2 [] →
          wi.y ≠ wj.y :=
  ⟨by decide, by decide, bands_disjoint 10 3 (by decide) (by decide)⟩

/-- C2: for every worker count `N ≥ 1` and image height `H ≥ 0` that `N`
divides, every row `0 ≤ y < H` lies in exactly one band of the threads `main`
creates, the first band starts at row `0`, each band ends where the next one
starts, and the last band ends at `H`. -/
theorem bands_cover_when_divisible (H N : Int) (hH : 0 ≤ H) (hN : 1 ≤ N) (hdvd : N ∣ H) :
    ∃ threads, spawnThreads H N = some threads ∧ (threads.length : Int) = N ∧
      (∀ y, 0 ≤ y → y < H → ∃! i : Nat, ∃ b, threads[i]? = some b ∧ inBand b y) ∧
      (∃ b, threads[0]? = some b ∧ b.1 = 0) ∧
      (∀ (i : Nat) (b b' : Int × Int), threads[i]? = some b → threads[i + 1]? = some b' →
        b.2 = b'.1) ∧
      (∃ b, threads[threads.length - 1]? = some b ∧ b.2 = H) := by
  have hfull : N * H.tdiv N = H := by
    have h1 := Int.tdiv_add_tmod H N
    have h2 : H.tmod N = 0 := by
      rw [Int.tmod_eq_emod hH (by omega)]
      exact Int.emod_eq_zero_of_dvd hdvd
    omega
  refine ⟨_, spawnThreads_eq H N hN, by simp; omega, ?_, ?_, ?_, ?_⟩
  · intro y hy hlt
    exact row_in_unique_band H N hN y hy (by omega)
  · exact ⟨band H N 0, (getElem?_bands H N 0 _).2 ⟨by simpa using hN, rfl⟩, by simp [band]⟩
  · intro i b b' hb hb'
    obtain ⟨_, rfl⟩ := (getElem?_bands H N i b).1 hb
    obtain ⟨_, rfl⟩ := (getElem?_bands H N (i + 1) b').1 hb'
    simp [band]
  · refine ⟨band H N (N.toNat - 1), ?_, ?_⟩
    · have hl : ((List.range N.toNat).map (band H N)).length - 1 = N.toNat - 1 := by simp
      rw [hl]
      exact (getElem?_bands H N _ _).2 ⟨by omega, rfl⟩
    · simp only [band]
      have : ((N.toNat - 1 : Nat) : Int) + 1 = N := by omega
      rw [this]; exact hfull

/-- C2 at height `12` with `3` workers. -/
theorem bands_cover_when_divisible_witness :
    (0 : Int) ≤ 12 ∧ (1 : Int) ≤ 3 ∧ (3 : Int) ∣ 12 ∧
    ∃ threads, spawnThreads 12 3 = some threads ∧ (threads.length : Int) = 3 ∧
      (∀ y, 0 ≤ y → y < 12 → ∃! i : Nat, ∃ b, threads[i]? = some b ∧ inBand b y) ∧
      (∃ b, threads[0]? = some b ∧ b.1 = 0) ∧
      (∀ (i : Nat) (b b' : Int × Int), threads[i]? = some b → threads[i + 1]? = some b' →
        b.2 = b'.1) ∧
      (∃ b, threads[threads.length - 1]? = some b ∧ b.2 = 12) :=
  ⟨by decide, by decide, by decide,
    bands_cover_when_divisible 12 3 (by decide) (by decide) (by decide)⟩

/-- C3: for every image height `H ≥ 0` and worker count `N ≥ 1`, the last band
ends at row `N * (H / N)`, which is `H % N` rows, so at most `N - 1` rows, short
of `H`; a row of the image lies in no band exactly when it is at or above
`N * (H / N)`, and every row below lies in exactly one band. -/
theorem bands_remainder (H N : Int) (hH : 0 ≤ H) (hN : 1 ≤ N) :
    ∃ threads, spawnThreads H N = some threads ∧
      (∃ b, threads[threads.length - 1]? = some b ∧ b.2 = N * H.tdiv N) ∧
      H - N * H.tdiv N = H.tmod N ∧ 0 ≤ H.tmod N ∧ H.tmod N ≤ N - 1 ∧
      (∀ y, 0 ≤ y → y < H →
        ((∀ (i : Nat) (b : Int × Int), threads[i]? = some b → ¬ inBand b y)
          ↔ N * H.tdiv N ≤ y)) ∧
      (∀ y, 0 ≤ y → y < N * H.tdiv N →
        ∃! i : Nat, ∃ b, threads[i]? = some b ∧ inBand b y) := by
  have hq : 0 ≤ H.tdiv N := Int.tdiv_nonneg hH (by omega)
  refine ⟨_, spawnThreads_eq H N hN, ?_, ?_, Int.tmod_nonneg N hH, ?_, ?_, ?_⟩
  · refine ⟨band H N (N.toNat - 1), ?_, ?_⟩
    · have hl : ((List.range N.toNat).map (band H N)).length - 1 = N.toNat - 1 := by simp
      rw [hl]
      exact (getElem?_bands H N _ _).2 ⟨by omega, rfl⟩
    · simp only [band]
      have : ((N.toNat - 1 : Nat) : Int) + 1 = N := by omega
      rw [this]
  · have h1 := Int.tdiv_add_tmod H N
    omega
  · have := Int.tmod_lt_of_pos H (show 0 < N by omega)
    omega
  · intro y hy _
    constructor
    · intro hno
      by_contra hlt
      obtain ⟨i, ⟨b, hb, hin⟩, _⟩ := row_in_unique_band H N hN y hy (by omega)
      exact hno i b hb hin
    · intro hge i b hb hin
      obtain ⟨hi, rfl⟩ := (getElem?_bands H N i b).1 hb
      have h1 : ((i : Int) + 1) * H.tdiv N ≤ N * H.tdiv N :=
        Int.mul_le_mul_of_nonneg_right (by omega) hq
      have h2 := hin.2
      simp only [band] at h2
      omega
  · intro y hy hlt
    exact row_in_unique_band H N hN y hy hlt

/-- C3 at height `10` with `3` workers: the last band ends at row `9`. -/
theorem bands_remainder_witness :
    (0 : Int) ≤ 10 ∧ (1 : Int) ≤ 3 ∧
    ∃ threads, spawnThreads 10 3 = some threads ∧
      (∃ b, threads[threads.length - 1]? = some b ∧ b.2 = 3 * Int.tdiv 10 3) ∧
      10 - 3 * Int.tdiv 10 3 = Int.tmod 10 3 ∧ 0 ≤ Int.tmod 10 3 ∧ Int.tmod 10 3 ≤ 3 - 1 ∧
      (∀ y, 0 ≤ y → y < 10 →
        ((∀ (i : Nat) (b : Int × Int), threads[i]? = some b → ¬ inBand b y)
          ↔ 3 * Int.tdiv 10 3 ≤ y)) ∧
      (∀ y, 0 ≤ y → y < 3 * Int.tdiv 10 3 →
        ∃! i : Nat, ∃ b, threads[i]? = some b ∧ inBand b y) :=
  ⟨by decide, by decide, bands_remainder 10 3 (by decide) (by decide)⟩

/-- C4, as the code has it: for every value `c ≥ 0` of the hardware-concurrency
query, `main` creates exactly `c` threads, so it creates at least one exactly
when `c ≥ 1`; no floor is applied to `c`. -/
theorem thread_count (H c : Int) (hc : 0 ≤ c) :
    ∃ threads, spawnThreads H c = some threads ∧ (threads.length : Int) = c ∧
      (1 ≤ threads.length ↔ 1 ≤ c) := by
  refine ⟨_, spawnThreads_total H c, by simp; omega, ?_⟩
  simp only [List.length_map, List.length_range]
  omega

/-- The thread count for a hardware count of `8`. -/
theorem thread_count_witness :
    (0 : Int) ≤ 8 ∧
    ∃ threads, spawnThreads 1024 8 = some threads ∧ (threads.length : Int) = 8 ∧
      (1 ≤ threads.length ↔ (1 : Int) ≤ 8) :=
  ⟨by decide, thread_count 1024 8 (by decide)⟩

/-- C4 fails when the query reports `0`: `main` then creates no thread. -/
theorem no_thread_when_count_zero :
    spawnThreads 1024 0 = some [] ∧
      ¬ ∃ threads, spawnThreads 1024 0 = some threads ∧ 1 ≤ threads.length := by
  have h : spawnThreads 1024 0 = some [] := by decide
  refine ⟨h, ?_⟩
  rintro ⟨threads, ht, hlen⟩
  rw [h] at ht
  cases ht
  simp at hlen

/-- C10: for every width, height and hardware count `≥ 0`, `main` returns an
image, so no division by zero is met (for a count of `0` the quotient is a
failure that `main` never reaches); every store it makes has `0 ≤ x < W`,
`0 ≤ y < H` and a channel below `3`; and when the count exceeds the height it
makes no store at all. -/
theorem main_writes_in_bounds (e : Env) (c : Int) (image : Image)
    (_hW : 0 ≤ e.windowWidth) (hH : 0 ≤ e.windowHeight) (hc : 0 ≤ c) :
    (c = 0 → idiv e.windowHeight c = none) ∧
    ∃ news, main e c image = some (news ++ image) ∧
      (∀ w ∈ news, 0 ≤ w.x ∧ w.x < e.windowWidth ∧ 0 ≤ w.y ∧ w.y < e.windowHeight ∧ w.c < 3) ∧
      (e.windowHeight < c → news = []) := by
  refine ⟨fun h => by simp [idiv, h], ?_⟩
  refine ⟨runThreads e ((List.range c.toNat).map (band e.windowHeight c)) [], ?_, ?_, ?_⟩
  · simp only [main, spawnThreads_total, Option.bind_eq_bind, Option.some_bind]
    rw [runThreads_eq, runThreads_eq]; simp
  · intro w hw
    rw [mem_runThreads] at hw
    obtain ⟨t, ht, y, x, hin, hx0, hx1, hw⟩ := hw
    obtain ⟨i, hi, rfl⟩ := (mem_bands _ _ t).1 ht
    have hr := threadArgs_range e.windowHeight c hH (by omega) i hi
    obtain ⟨e1, e2, e3, _⟩ := (mem_pixelWrites e y x w).1 hw
    have h1 := hin.1
    have h2 := hin.2
    rw [e1, e2]
    exact ⟨hx0, hx1, by omega, by omega, e3⟩
  · intro hlt
    have hq : e.windowHeight.tdiv c = 0 := Int.tdiv_eq_zero_of_lt hH hlt
    apply List.eq_nil_iff_forall_not_mem.2
    intro w hw
    rw [mem_runThreads] at hw
    obtain ⟨t, ht, y, x, hin, _⟩ := hw
    obtain ⟨i, hi, rfl⟩ := (mem_bands _ _ t).1 ht
    have h1 := hin.1
    have h2 := hin.2
    simp only [band, hq, mul_zero] at h1 h2
    omega


/-- C10 on the small scene with `2` workers and a fresh image. -/
theorem main_writes_in_bounds_witness :
    0 ≤ env0.windowWidth ∧ 0 ≤ env0.windowHeight ∧ (0 : Int) ≤ 2 ∧
    ((2 : Int) = 0 → idiv env0.windowHeight 2 = none) ∧
    ∃ news, main env0 2 [] = some (news ++ []) ∧
      (∀ w ∈ news,
        0 ≤ w.x ∧ w.x < env0.windowWidth ∧ 0 ≤ w.y ∧ w.y < env0.windowHeight ∧ w.c < 3) ∧
      (env0.windowHeight < 2 → news = []) :=
  ⟨by decide, by decide, by decide,
    main_writes_in_bounds env0 2 [] (by decide) (by decide) (by decide)⟩

/-! ## The camera coordinates -/

theorem half_bounds (W : Int) (hW : 2 ≤ W) :
    1 ≤ W.tdiv 2 ∧ 2 * W.tdiv 2 ≤ W ∧ W ≤ 2 * W.tdiv 2 + 1 := by
  rw [Int.tdiv_eq_ediv (by omega) (by omega)]
  omega

theorem camU_bounds (W : Int) (hW : 2 ≤ W) (x : Int) (hx0 : 0 ≤ x) (hx1 : x < W) :
    -1 ≤ camU W x ∧ camU W x ≤ 1 := by
  obtain ⟨h1, h2, h3⟩ := half_bounds W hW
  have hpos : (0 : ℚ) < ((W.tdiv 2 : Int) : ℚ) := by exact_mod_cast (show 0 < W.tdiv 2 by omega)
  unfold camU
  constructor
  · rw [le_div_iff₀ hpos]
    have : -(W.tdiv 2) ≤ x - W.tdiv 2 := by omega
    have : ((-(W.tdiv 2) : Int) : ℚ) ≤ ((x - W.tdiv 2 : Int) : ℚ) := by exact_mod_cast this
    simpa using this
  · rw [div_le_iff₀ hpos]
    have : x - W.tdiv 2 ≤ W.tdiv 2 := by omega
    have : ((x - W.tdiv 2 : Int) : ℚ) ≤ ((W.tdiv 2 : Int) : ℚ) := by exact_mod_cast this
    simpa using this

theorem camU_zero (W : Int) (hW : 2 ≤ W) : camU W 0 = -1 := by
  obtain ⟨h1, _, _⟩ := half_bounds W hW
  have hne : ((W.tdiv 2 : Int) : ℚ) ≠ 0 := by exact_mod_cast (show W.tdiv 2 ≠ 0 by omega)
  unfold camU
  rw [div_eq_iff hne]
  push_cast
  ring

theorem aspect_pos (W H : Int) (hW : 2 ≤ W) (hH : 2 ≤ H) : (0 : ℚ) < (H : ℚ) / (W : ℚ) := by
  have h1 : (0 : ℚ) < (H : ℚ) := by exact_mod_cast (show 0 < H by omega)
  have h2 : (0 : ℚ) < (W : ℚ) := by exact_mod_cast (show 0 < W by omega)
  exact div_pos h1 h2

/-- The second coordinate is the aspect ratio times a number of `[-1, 1]`. -/
theorem camV_eq (W H y : Int) :
    camV W H y = camU H y * -((H : ℚ) / (W : ℚ)) := by
  unfold camV camU
  ring

theorem camV_bounds (W H : Int) (hW : 2 ≤ W) (hH : 2 ≤ H) (y : Int) (hy0 : 0 ≤ y) (hy1 : y < H) :
    -((H : ℚ) / (W : ℚ)) ≤ camV W H y ∧ camV W H y ≤ (H : ℚ) / (W : ℚ) := by
  obtain ⟨h1, h2⟩ := camU_bounds H hH y hy0 hy1
  have hr := aspect_pos W H hW hH
  rw [camV_eq]
  constructor <;> nlinarith

theorem camV_zero (W H : Int) (hH : 2 ≤ H) : camV W H 0 = (H : ℚ) / (W : ℚ) := by
  rw [camV_eq, camU_zero H hH]
  ring

theorem camU_eq_zero_iff (W : Int) (hW : 2 ≤ W) (x : Int) : camU W x = 0 ↔ x = W.tdiv 2 := by
  obtain ⟨h1, _, _⟩ := half_bounds W hW
  have hne : ((W.tdiv 2 : Int) : ℚ) ≠ 0 := by exact_mod_cast (show W.tdiv 2 ≠ 0 by omega)
  unfold camU
  rw [div_eq_zero_iff]
  constructor
  · rintro (h | h)
    · have : x - W.tdiv 2 = 0 := by exact_mod_cast h
      omega
    · exact absurd h hne
  · intro h
    left
    rw [h]; simp

theorem camU_step (W : Int) (hW : 2 ≤ W) (x : Int) :
    camU W (x + 1) - camU W x = 1 / ((W.tdiv 2 : Int) : ℚ) := by
  obtain ⟨h1, _, _⟩ := half_bounds W hW
  have hne : ((W.tdiv 2 : Int) : ℚ) ≠ 0 := by exact_mod_cast (show W.tdiv 2 ≠ 0 by omega)
  unfold camU
  push_cast
  field_simp

theorem camV_step (W H : Int) (hW : 2 ≤ W) (hH : 2 ≤ H) (y : Int) :
    |camV W H (y + 1) - camV W H y| = (H : ℚ) / ((W : ℚ) * ((H.tdiv 2 : Int) : ℚ)) := by
  obtain ⟨h1, _, _⟩ := half_bounds H hH
  have hk : (0 : ℚ) < ((H.tdiv 2 : Int) : ℚ) := by exact_mod_cast (show 0 < H.tdiv 2 by omega)
  have hr := aspect_pos W H hW hH
  have hWq : (0 : ℚ) < (W : ℚ) := by exact_mod_cast (show 0 < W by omega)
  have hstep : camV W H (y + 1) - camV W H y
      = -((H : ℚ) / ((W : ℚ) * ((H.tdiv 2 : Int) : ℚ))) := by
    rw [camV_eq, camV_eq, ← sub_mul, camU_step H hH y]
    simp only [div_eq_mul_inv, mul_inv]
    ring
  rw [hstep, abs_neg, abs_of_pos]
  exact div_pos (by exact_mod_cast (show 0 < H by omega)) (mul_pos hWq hk)

theorem steps_eq_iff (W H : Int) (hW : 2 ≤ W) (hH : 2 ≤ H) (x y : Int) :
    camU W (x + 1) - camU W x = |camV W H (y + 1) - camV W H y|
      ↔ W * H.tdiv 2 = H * W.tdiv 2 := by
  obtain ⟨h1, _, _⟩ := half_bounds H hH
  obtain ⟨h2, _, _⟩ := half_bounds W hW
  have hk : ((H.tdiv 2 : Int) : ℚ) ≠ 0 := by exact_mod_cast (show H.tdiv 2 ≠ 0 by omega)
  have hh : ((W.tdiv 2 : Int) : ℚ) ≠ 0 := by exact_mod_cast (show W.tdiv 2 ≠ 0 by omega)
  have hWq : (W : ℚ) ≠ 0 := by exact_mod_cast (show W ≠ 0 by omega)
  rw [camU_step W hW, camV_step W H hW hH, div_eq_div_iff hh (mul_ne_zero hWq hk)]
  constructor
  · intro h
    have : ((W * H.tdiv 2 : Int) : ℚ) = ((H * W.tdiv 2 : Int) : ℚ) := by
      push_cast; linarith
    exact_mod_cast this
  · intro h
    have : ((W * H.tdiv 2 : Int) : ℚ) = ((H * W.tdiv 2 : Int) : ℚ) := by rw [h]
    push_cast at this
    linarith


/-! ## The claims on the camera coordinates -/

/-- C5, as the code has it: for every width and height `≥ 2`, in exact
arithmetic, the horizontal coordinate of every pixel lies in `[-1, 1]` and is
`-1` at column `0`; the vertical coordinate of every pixel lies in
`[-H/W, H/W]` and is `H/W` at row `0`. So the coordinate along the shorter axis
always lies in `[-1, 1]`, and its first pixel has absolute value `1` when
`W ≤ H`; when `H ≤ W` it has absolute value `1` only for `H = W`. -/
theorem short_axis_span (W H : Int) (hW : 2 ≤ W) (hH : 2 ≤ H) :
    (∀ x, 0 ≤ x → x < W → -1 ≤ camU W x ∧ camU W x ≤ 1) ∧
    camU W 0 = -1 ∧
    (∀ y, 0 ≤ y → y < H →
      -((H : ℚ) / (W : ℚ)) ≤ camV W H y ∧ camV W H y ≤ (H : ℚ) / (W : ℚ)) ∧
    camV W H 0 = (H : ℚ) / (W : ℚ) ∧
    (W ≤ H → |camU W 0| = 1) ∧
    (H ≤ W → ∀ y, 0 ≤ y → y < H → -1 ≤ camV W H y ∧ camV W H y ≤ 1) ∧
    (H ≤ W → (|camV W H 0| = 1 ↔ H = W)) := by
  have hr := aspect_pos W H hW hH
  have hWq : (0 : ℚ) < (W : ℚ) := by exact_mod_cast (show 0 < W by omega)
  refine ⟨camU_bounds W hW, camU_zero W hW, camV_bounds W H hW hH, camV_zero W H hH,
    ?_, ?_, ?_⟩
  · intro _
    rw [camU_zero W hW]; norm_num
  · intro hle y hy0 hy1
    obtain ⟨h1, h2⟩ := camV_bounds W H hW hH y hy0 hy1
    have hr1 : (H : ℚ) / (W : ℚ) ≤ 1 := by
      rw [div_le_one hWq]
      exact_mod_cast hle
    constructor <;> linarith
  · intro _
    rw [camV_zero W H hH, abs_of_pos hr, div_eq_one_iff_eq hWq.ne']
    exact_mod_cast Iff.rfl

/-- The coordinate spans of a `4 × 2` image. -/
theorem short_axis_span_witness :
    (2 : Int) ≤ 4 ∧ (2 : Int) ≤ 2 ∧
    (∀ x, 0 ≤ x → x < 4 → -1 ≤ camU 4 x ∧ camU 4 x ≤ 1) ∧
    camU 4 0 = -1 ∧
    (∀ y, 0 ≤ y → y < 2 →
      -(((2 : Int) : ℚ) / ((4 : Int) : ℚ)) ≤ camV 4 2 y ∧
        camV 4 2 y ≤ ((2 : Int) : ℚ) / ((4 : Int) : ℚ)) ∧
    camV 4 2 0 = ((2 : Int) : ℚ) / ((4 : Int) : ℚ) ∧
    ((4 : Int) ≤ 2 → |camU 4 0| = 1) ∧
    ((2 : Int) ≤ 4 → ∀ y, 0 ≤ y → y < 2 → -1 ≤ camV 4 2 y ∧ camV 4 2 y ≤ 1) ∧
    ((2 : Int) ≤ 4 → (|camV 4 2 0| = 1 ↔ (2 : Int) = 4)) :=
  ⟨by decide, by decide, short_axis_span 4 2 (by decide) (by decide)⟩

/-- C5 fails for a wide image: with `W = 4` and `H = 2` the shorter axis is the
vertical one, and its first row has coordinate `1/2`. -/
theorem short_axis_not_unit : (2 : Int) < 4 ∧ camV 4 2 0 = 1 / 2 ∧ |camV 4 2 0| ≠ 1 := by
  have h : camV 4 2 0 = 1 / 2 := by norm_num [camV]
  refine ⟨by decide, h, ?_⟩
  rw [h]; norm_num [abs_of_pos]

/-- C6, as the code has it: for every width and height `≥ 2`, in exact
arithmetic, the horizontal step is `1 / (W / 2)` and the vertical step has
absolute value `H / (W * (H / 2))`, with truncating halves; the two are equal
exactly when `W * (H / 2) = H * (W / 2)`, which holds when `W` and `H` are both
even and when `W = H`. -/
theorem pixel_steps (W H : Int) (hW : 2 ≤ W) (hH : 2 ≤ H) (x y : Int) :
    camU W (x + 1) - camU W x = 1 / ((W.tdiv 2 : Int) : ℚ) ∧
    |camV W H (y + 1) - camV W H y| = (H : ℚ) / ((W : ℚ) * ((H.tdiv 2 : Int) : ℚ)) ∧
    (camU W (x + 1) - camU W x = |camV W H (y + 1) - camV W H y|
      ↔ W * H.tdiv 2 = H * W.tdiv 2) ∧
    (2 ∣ W → 2 ∣ H → camU W (x + 1) - camU W x = |camV W H (y + 1) - camV W H y|) ∧
    (W = H → camU W (x + 1) - camU W x = |camV W H (y + 1) - camV W H y|) := by
  refine ⟨camU_step W hW x, camV_step W H hW hH y, steps_eq_iff W H hW hH x y, ?_, ?_⟩
  · intro h1 h2
    rw [steps_eq_iff W H hW hH]
    obtain ⟨a, rfl⟩ := h1
    obtain ⟨b, rfl⟩ := h2
    rw [Int.tdiv_eq_ediv (by omega) (by omega), Int.tdiv_eq_ediv (by omega) (by omega),
      Int.mul_ediv_cancel_left _ (by omega), Int.mul_ediv_cancel_left _ (by omega)]
    ring
  · intro h
    rw [steps_eq_iff W H hW hH, h]

/-- The pixel steps of a `3 × 2` image at pixel `(0, 0)`. -/
theorem pixel_steps_witness :
    (2 : Int) ≤ 3 ∧ (2 : Int) ≤ 2 ∧
    camU 3 (0 + 1) - camU 3 0 = 1 / ((Int.tdiv 3 2 : Int) : ℚ) ∧
    |camV 3 2 (0 + 1) - camV 3 2 0|
      = ((2 : Int) : ℚ) / (((3 : Int) : ℚ) * ((Int.tdiv 2 2 : Int) : ℚ)) ∧
    (camU 3 (0 + 1) - camU 3 0 = |camV 3 2 (0 + 1) - camV 3 2 0|
      ↔ 3 * Int.tdiv 2 2 = 2 * Int.tdiv 3 2) ∧
    ((2 : Int) ∣ 3 → (2 : Int) ∣ 2 →
      camU 3 (0 + 1) - camU 3 0 = |camV 3 2 (0 + 1) - camV 3 2 0|) ∧
    ((3 : Int) = 2 → camU 3 (0 + 1) - camU 3 0 = |camV 3 2 (0 + 1) - camV 3 2 0|) :=
  ⟨by decide, by decide, pixel_steps 3 2 (by decide) (by decide) 0 0⟩

/-- C6 fails for an odd width: with `W = 3` and `H = 2` the horizontal step is
`1` and the vertical step is `2/3`. -/
theorem pixel_steps_differ :
    camU 3 1 - camU 3 0 = 1 ∧ |camV 3 2 1 - camV 3 2 0| = 2 / 3 ∧
      camU 3 (0 + 1) - camU 3 0 ≠ |camV 3 2 (0 + 1) - camV 3 2 0| := by
  have h32 : Int.tdiv 3 2 = 1 := by decide
  have h22 : Int.tdiv 2 2 = 1 := by decide
  have h1 : camU 3 1 - camU 3 0 = 1 := by norm_num [camU, h32]
  have h2 : |camV 3 2 1 - camV 3 2 0| = 2 / 3 := by
    have : camV 3 2 1 - camV 3 2 0 = -(2 / 3) := by norm_num [camV, h22]
    rw [this, abs_neg]; norm_num [abs_of_pos]
  refine ⟨h1, h2, ?_⟩
  norm_num only [zero_add]
  rw [h1, h2]; norm_num

/-- C7: for every width and height `≥ 2`, in exact arithmetic, the pixel
`(W / 2, H / 2)` has camera coordinates `(0, 0)`, a column has first coordinate
`0` only if it is `W / 2`, and a row has second coordinate `0` only if it is
`H / 2`. -/
theorem centre_pixel (W H : Int) (hW : 2 ≤ W) (hH : 2 ≤ H) :
    camU W (W.tdiv 2) = 0 ∧ camV W H (H.tdiv 2) = 0 ∧
    (∀ x, camU W x = 0 → x = W.tdiv 2) ∧
    (∀ y, camV W H y = 0 → y = H.tdiv 2) := by
  have hr := aspect_pos W H hW hH
  have hv : ∀ y, camV W H y = 0 ↔ y = H.tdiv 2 := by
    intro y
    rw [camV_eq, mul_eq_zero, camU_eq_zero_iff H hH]
    constructor
    · rintro (h | h)
      · exact h
      · exfalso
        have : (H : ℚ) / (W : ℚ) = 0 := by linarith
        linarith
    · intro h; exact Or.inl h
  exact ⟨(camU_eq_zero_iff W hW _).2 rfl, (hv _).2 rfl,
    fun x h => (camU_eq_zero_iff W hW x).1 h, fun y h => (hv y).1 h⟩

/-- C7 for a `5 × 4` image: the centre pixel is `(2, 2)`. -/
theorem centre_pixel_witness :
    (2 : Int) ≤ 5 ∧ (2 : Int) ≤ 4 ∧
    camU 5 (Int.tdiv 5 2) = 0 ∧ camV 5 4 (Int.tdiv 4 2) = 0 ∧
    (∀ x, camU 5 x = 0 → x = Int.tdiv 5 2) ∧
    (∀ y, camV 5 4 y = 0 → y = Int.tdiv 4 2) :=
  ⟨by decide, by decide, centre_pixel 5 4 (by decide) (by decide)⟩

/-! ## The claims on the stored values -/

theorem data_runThreads (e : Env) (threads : List (Int × Int)) (r : Image)
    (hr : r.Perm (runThreads e threads [])) (x y : Int) (c : Nat)
    (hx0 : 0 ≤ x) (hx1 : x < e.windowWidth) (hc : c < 3)
    (hy : ∃ t ∈ threads, inBand t y) :
    r.data x y c = (finalColour e x y).chan c * 255 := by
  apply data_of_mem
  · obtain ⟨t, ht, hin⟩ := hy
    refine ⟨⟨x, y, c, (finalColour e x y).chan c * 255⟩, ?_, rfl, rfl, rfl⟩
    rw [hr.mem_iff, mem_runThreads]
    exact ⟨t, ht, y, x, hin, hx0, hx1, (mem_pixelWrites e y x _).2 ⟨rfl, rfl, hc, rfl⟩⟩
  · rintro w hw ⟨e1, e2, e3⟩
    rw [hr.mem_iff, mem_runThreads] at hw
    obtain ⟨t, _, y', x', _, _, _, hw⟩ := hw
    obtain ⟨f1, f2, _, f4⟩ := (mem_pixelWrites e y' x' w).1 hw
    rw [f4, ← f1, ← f2, e1, e2, e3]; rfl

/-- C8: `Width` only adds stores to the image; each of them is at a pixel of
its band, for a channel below `3`, and stores `255` times that channel of
`saturate (toSRGB (trace u v))`; after the call the three samples of every
pixel of the band hold these values; and when `saturate` returns channels in
`[0, 1]` every value stored lies in `[0, 255]`. -/
theorem Width_stores (e : Env) (start stop : Int) (image : Image) :
    ∃ news, Width e start stop image = news ++ image ∧
      (∀ w ∈ news, start ≤ w.y ∧ w.y < stop ∧ 0 ≤ w.x ∧ w.x < e.windowWidth ∧ w.c < 3 ∧
        w.val = 255 * (e.saturate (e.toSRGB (e.trace (camU e.windowWidth w.x)
          (camV e.windowWidth e.windowHeight w.y)))).chan w.c) ∧
      (∀ x y, start ≤ y → y < stop → 0 ≤ x → x < e.windowWidth →
        (news ++ image).data x y 0 = 255 * (e.saturate (e.toSRGB (e.trace
          (camU e.windowWidth x) (camV e.windowWidth e.windowHeight y)))).r ∧
        (news ++ image).data x y 1 = 255 * (e.saturate (e.toSRGB (e.trace
          (camU e.windowWidth x) (camV e.windowWidth e.windowHeight y)))).g ∧
        (news ++ image).data x y 2 = 255 * (e.saturate (e.toSRGB (e.trace
          (camU e.windowWidth x) (camV e.windowWidth e.windowHeight y)))).b) ∧
      ((∀ k, (0 ≤ (e.saturate k).r ∧ (e.saturate k).r ≤ 1) ∧
          (0 ≤ (e.saturate k).g ∧ (e.saturate k).g ≤ 1) ∧
          (0 ≤ (e.saturate k).b ∧ (e.saturate k).b ≤ 1)) →
        ∀ w ∈ news, 0 ≤ w.val ∧ w.val ≤ 255) := by
  have hmem : ∀ w ∈ widthWrites e start stop,
      start ≤ w.y ∧ w.y < stop ∧ 0 ≤ w.x ∧ w.x < e.windowWidth ∧ w.c < 3 ∧
        w.val = 255 * (finalColour e w.x w.y).chan w.c := by
    intro w hw
    rw [mem_widthWrites] at hw
    obtain ⟨y, x, h1, h2, h3, h4, hw⟩ := hw
    obtain ⟨e1, e2, e3, e4⟩ := (mem_pixelWrites e y x w).1 hw
    rw [e1, e2]
    exact ⟨h1, h2, h3, h4, e3, by rw [e4, mul_comm]; rfl⟩
  have hdata : ∀ x y c, start ≤ y → y < stop → 0 ≤ x → x < e.windowWidth → c < 3 →
      Image.data (widthWrites e start stop ++ image) x y c
        = 255 * (finalColour e x y).chan c := by
    intro x y c h1 h2 h3 h4 hc
    apply data_append_of_mem
    · refine ⟨⟨x, y, c, (finalColour e x y).chan c * 255⟩, ?_, rfl, rfl, rfl⟩
      rw [mem_widthWrites]
      exact ⟨y, x, h1, h2, h3, h4, (mem_pixelWrites e y x _).2 ⟨rfl, rfl, hc, rfl⟩⟩
    · rintro w hw ⟨e1, e2, e3⟩
      rw [(hmem w hw).2.2.2.2.2, e1, e2, e3]
  refine ⟨widthWrites e start stop, Width_eq e start stop image, hmem, ?_, ?_⟩
  · intro x y h1 h2 h3 h4
    exact ⟨hdata x y 0 h1 h2 h3 h4 (by omega), hdata x y 1 h1 h2 h3 h4 (by omega),
      hdata x y 2 h1 h2 h3 h4 (by omega)⟩
  · intro hsat w hw
    obtain ⟨_, _, _, _, hc, hv⟩ := hmem w hw
    obtain ⟨hr, hg, hb⟩ := hsat (e.toSRGB (e.trace (camU e.windowWidth w.x)
      (camV e.windowWidth e.windowHeight w.y)))
    rw [hv]
    unfold finalColour Colour.chan
    split
    · constructor <;> linarith [hr.1, hr.2]
    · constructor <;> linarith [hg.1, hg.2]
    · constructor <;> linarith [hb.1, hb.2]

/-- C9: for a fixed scene, width and height and two worker counts `N1` and `N2`
that are `≥ 1`, let the bands `main` creates for each count be processed in any
order and their stores be made in any order; a pixel whose row lies in a band
of both partitions then holds the same three channel values in both images,
the values of `Width` for that pixel. -/
theorem render_independent_of_partition (e : Env) (N1 N2 : Int) (_h1 : 1 ≤ N1) (_h2 : 1 ≤ N2)
    (t1 t2 o1 o2 : List (Int × Int)) (r1 r2 : Image)
    (hs1 : spawnThreads e.windowHeight N1 = some t1)
    (hs2 : spawnThreads e.windowHeight N2 = some t2)
    (ho1 : o1.Perm t1) (ho2 : o2.Perm t2)
    (hr1 : r1.Perm (runThreads e o1 [])) (hr2 : r2.Perm (runThreads e o2 []))
    (x y : Int) (c : Nat) (hx0 : 0 ≤ x) (hx1 : x < e.windowWidth) (hc : c < 3)
    (hy1 : ∃ t ∈ t1, inBand t y) (hy2 : ∃ t ∈ t2, inBand t y) :
    main e N1 [] = some (runThreads e t1 []) ∧ main e N2 [] = some (runThreads e t2 []) ∧
    r1.data x y c = r2.data x y c ∧
    r1.data x y c = (e.saturate (e.toSRGB (e.trace (camU e.windowWidth x)
      (camV e.windowWidth e.windowHeight y)))).chan c * 255 := by
  have hy1' : ∃ t ∈ o1, inBand t y := by
    obtain ⟨t, ht, hin⟩ := hy1
    exact ⟨t, ho1.mem_iff.2 ht, hin⟩
  have hy2' : ∃ t ∈ o2, inBand t y := by
    obtain ⟨t, ht, hin⟩ := hy2
    exact ⟨t, ho2.mem_iff.2 ht, hin⟩
  have d1 := data_runThreads e o1 r1 hr1 x y c hx0 hx1 hc hy1'
  have d2 := data_runThreads e o2 r2 hr2 x y c hx0 hx1 hc hy2'
  refine ⟨by simp [main, hs1], by simp [main, hs2], by rw [d1, d2], d1⟩

/-- C9 on the small scene: one worker against two workers run in reverse
order, at the green channel of pixel `(1, 3)`. -/
theorem render_independent_of_partition_witness :
    spawnThreads env0.windowHeight 1 = some [(0, 4)] ∧
    spawnThreads env0.windowHeight 2 = some [(0, 2), (2, 4)] ∧
    main env0 1 [] = some (runThreads env0 [(0, 4)] []) ∧
    main env0 2 [] = some (runThreads env0 [(0, 2), (2, 4)] []) ∧
    (runThreads env0 [(0, 4)] []).data 1 3 1 = (runThreads env0 [(2, 4), (0, 2)] []).data 1 3 1 ∧
    (runThreads env0 [(0, 4)] []).data 1 3 1
      = (env0.saturate (env0.toSRGB (env0.trace (camU env0.windowWidth 1)
          (camV env0.windowWidth env0.windowHeight 3)))).chan 1 * 255 :=
  ⟨by decide, by decide,
    render_independent_of_partition env0 1 2 (by decide) (by decide)
      [(0, 4)] [(0, 2), (2, 4)] [(0, 4)] [(2, 4), (0, 2)]
      (runThreads env0 [(0, 4)] []) (runThreads env0 [(2, 4), (0, 2)] [])
      (by decide) (by decide) (List.Perm.refl _) (List.Perm.swap _ _ _)
      (List.Perm.refl _) (List.Perm.refl _)
      1 3 1 (by decide) (by decide) (by decide)
      ⟨(0, 4), List.mem_singleton.2 rfl, by decide⟩
      ⟨(2, 4), List.mem_cons_of_mem _ (List.mem_singleton.2 rfl), by decide⟩⟩

end Raytracer
